import Mathlib

/-!
Shallow embedding of the constrained nonlinear-regression engine of the
cloudlesslabs/ml repository (src/regression/nonlinear.mjs and the numeric
helpers of src/matrix/utils.mjs it relies on).

Modelling conventions:
* JavaScript numbers are modelled as exact rationals.  Every arithmetic
  operation the engine performs (+, -, *, /, **, Math.round via the
  two-decimal learning-rate rounding) is rational, so the embedding is
  executable.  Statements that the source makes "within floating
  tolerance" become exact statements over these rationals.
* Basis functions ("components") are values of type Q -> Q.
* The Nx1 coefficient matrices of the source ([[c0],[c1],...]) are
  modelled as plain lists [c0, c1, ...].
* Fallible code returns Except RegError; each throw site of the source is
  mapped to one RegError constructor.  Argument-type checks of the source
  (typeof, isNaN, Array.isArray) are unrepresentable in the typed
  embedding and vanish; a JavaScript crash that is not a thrown
  puffy-core error (property access on undefined) is modelled as the
  distinguished error `typeError`.
* The QR decomposition + backward substitution pair (src/linalg/qr.mjs,
  src/linalg/backward.mjs) is the LinearSolver collaborator the spec
  scopes out of the core ("solve(A, Y) -> coefficients, fails if
  singular").  QR uses Math.sqrt and is not rational; in exact arithmetic
  its outcome on a square system is the unique solution when the system
  is nonsingular, and a near-zero R-diagonal otherwise.  It is modelled
  by exact Gaussian elimination (`linSolve`) with the same contract:
  returns the solution, fails with `notIndependent` when no pivot of
  magnitude above EPSILON can be found.
-/

/- The arithmetic operations on ℚ are irreducible by default, which
blocks kernel evaluation of the embedded program on concrete inputs;
restore their definitional transparency so closed runs reduce. -/
set_option allowUnsafeReducibility true in
attribute [semireducible] Rat.add Rat.mul Rat.sub Rat.div Rat.inv Rat.neg

namespace CloudlessML

/-- The numeric tolerance of src/matrix/utils.mjs: DIGIT = 8,
EPSILON = 1 / ((10 ** DIGIT) * 2). -/
def EPSILON : ℚ := 1 / ((10 ^ 8) * 2)

/-- src/matrix/utils.mjs: isZero = v => Math.abs(v) <= EPSILON. -/
def isZero (v : ℚ) : Prop := |v| ≤ EPSILON

instance : DecidablePred isZero := fun v => inferInstanceAs (Decidable (|v| ≤ EPSILON))

/-- A basis function ("component"): a scalar-to-scalar pure function. -/
abbrev Comp := ℚ → ℚ

/-- A training point [x, y]. -/
abbrev Point := ℚ × ℚ

/-- The structured error taxonomy: one constructor per throw site of the
regression engine that is representable in the typed embedding. -/
inductive RegError where
  /-- "Unstable system. The point [x,y] generates an xN close or equal to zero." -/
  | unstable
  /-- "'components' cannot be empty" -/
  | emptyComponents
  /-- resolveCoeffs: "Missing required 'coeffs' matrix" -/
  | missingCoeffs
  /-- resolveCoeffs: "Expecting a list of N coefficients ..." -/
  | wrongCoeffsLength
  /-- "Incoherent input. The number of 1st derivative components is expected to be N-1 ..." -/
  | incoherentSlopes
  /-- "Overdetermined system. The 1st derivatives form a nonlinear equations system ..." -/
  | overdeterminedSlopes
  /-- "Missing required 'points' argument." -/
  | missingPoints
  /-- "Missing points, not enough data provided. ..." -/
  | notEnoughPoints
  /-- "The N points are not linearly independant. ..." -/
  | notIndependent
  /-- "Missing required 'options.slopeConstraints.components'. ..." -/
  | missingSlopeComponents
  /-- A raw JavaScript TypeError (property access on undefined), not a
  puffy-core wrapped error: the engine crashes rather than reporting. -/
  | typeError
deriving DecidableEq, Repr

/-- A coefficient-expansion function as produced by the constraint
reducer.  The source calls these with either a coefficient matrix or no
argument at all (resolveCoeffs()); the missing-argument call is the
`none` case. -/
abbrev Resolver := Option (List ℚ) → Except RegError (List ℚ)

/-- Value of a linear combination: sum over i of cs[i] * fs[i](x).
This is the equation the engine solves (components and coefficients are
paired positionally; zipWith mirrors the index-bounded loops). -/
def evalLC (fs : List Comp) (cs : List ℚ) (x : ℚ) : ℚ :=
  (List.zipWith (fun c f => c * f x) cs fs).sum

/-- src/regression/nonlinear.mjs getPolynomeComponents: for degree d the
d+1 functions [x ↦ x^d, ..., x ↦ x^2, x ↦ x, _ ↦ 1] (highest power
first, constant last). -/
def getPolynomeComponents (deg : Nat) : List Comp :=
  (((List.range deg).map
    (fun i => if i = 0 then (fun x : ℚ => x) else (fun x : ℚ => x ^ (i + 1 : ℕ)))).reverse)
  ++ [fun _ => 1]

/-- src/regression/nonlinear.mjs get1stDerivativePolynomeComponents: for
degree d the d functions [x ↦ d*x^(d-1), ..., x ↦ 2x, _ ↦ 1]. -/
def get1stDerivativePolynomeComponents (deg : Nat) : List Comp :=
  ((List.range deg).map
    (fun i => if i = 0 then (fun _ : ℚ => 1)
      else if i = 1 then (fun x : ℚ => 2 * x)
      else (fun x : ℚ => (((i + 1 : ℕ) : ℚ)) * x ^ (i : ℕ)))).reverse

/-- The zero basis function, used only as the (unreachable) default of
last-element lookups on lists the source indexes unconditionally. -/
def zComp : Comp := fun _ => 0

/-- The eliminated (last) basis function of _decreaseLinearComplexity:
components[dim-1] for dim > 1, components[0] for dim == 1 (both are the
last entry). -/
def lastComp (comps : List Comp) : Comp := comps.getLastD zComp

/-- The elimination pivot xN = xis[lastIdx]: the last basis function
evaluated at the constraint's x. -/
def pivotAt (comps : List Comp) (x : ℚ) : ℚ :=
  ((comps.map (fun fn => fn x)).getLastD 0)

/-- _decreaseLinearComplexity, dim > 1 branch: newXis = xis.slice(0,-1).map(v => -v/xn). -/
def newXisOf (comps : List Comp) (p : Point) : List ℚ :=
  ((comps.map (fun fn => fn p.1)).dropLast).map (fun v => -v / pivotAt comps p.1)

/-- _decreaseLinearComplexity, dim > 1 branch: newY = y/xn. -/
def newYOf (comps : List Comp) (p : Point) : ℚ := p.2 / pivotAt comps p.1

/-- _decreaseLinearComplexity, dim > 1 branch: yMap = (xx,yy) => yy - newY*componentN(xx). -/
def redYMap (comps : List Comp) (p : Point) : ℚ → ℚ → ℚ :=
  fun xx yy => yy - newYOf comps p * lastComp comps xx

/-- _decreaseLinearComplexity, dim > 1 branch:
updateComponents(components, componentN): newComponents[i] = v => fn(v) + K*componentN(v)
for i below the length of newXis (the source indexes components[i] for
those i; zipWith reproduces the index-bounded loop). -/
def redUpdate (comps : List Comp) (p : Point) : List Comp → Comp → List Comp :=
  fun components componentN =>
    List.zipWith (fun fn K => fun v => fn v + K * componentN v) components (newXisOf comps p)

/-- _decreaseLinearComplexity, dim > 1 branch: the simplified basis
newComponents = updateComponents(components.slice(0,-1) indexwise, componentN). -/
def redComponents (comps : List Comp) (p : Point) : List Comp :=
  redUpdate comps p comps.dropLast (lastComp comps)

/-- _decreaseLinearComplexity, dim > 1 branch: resolveCoeffs(coeffs)
checks the reduced coefficient count and appends the eliminated
coefficient newY + sum_i coeffs[i]*newXis[i]. -/
def redResolve (comps : List Comp) (p : Point) : Resolver :=
  fun oc =>
    match oc with
    | none => .error .missingCoeffs
    | some cs =>
      if cs.length = comps.length - 1 then
        .ok (cs ++ [newYOf comps p + (List.zipWith (· * ·) cs (newXisOf comps p)).sum])
      else .error .wrongCoeffsLength

/-- The record returned by _decreaseLinearComplexity. -/
structure Reduced where
  components : List Comp
  yMap : ℚ → ℚ → ℚ
  remap : List Point → List Point
  resolveCoeffs : Resolver
  updateComponents : List Comp → Comp → List Comp

/-- src/regression/nonlinear.mjs _decreaseLinearComplexity: eliminates
one basis dimension using a single training point.  dim == 1 returns the
fully-resolved system ([] components, coefficient y/components[0](x));
dim > 1 eliminates the last component.  Both branches fail with the
unstable-system error when the pivot is within EPSILON of zero. -/
def _decreaseLinearComplexity (comps : List Comp) (p : Point) : Except RegError Reduced :=
  match comps with
  | [] => .error .emptyComponents
  | [c0] =>
    if isZero (c0 p.1) then .error .unstable
    else
      .ok { components := []
            yMap := fun _ yy => yy
            remap := fun pts => pts
            resolveCoeffs := fun _ => .ok [p.2 / c0 p.1]
            updateComponents := fun _ _ => [] }
  | _ :: _ :: _ =>
    if isZero (pivotAt comps p.1) then .error .unstable
    else
      .ok { components := redComponents comps p
            yMap := redYMap comps p
            remap := fun pts => pts.map (fun q => (q.1, redYMap comps p q.1 q.2))
            resolveCoeffs := redResolve comps p
            updateComponents := redUpdate comps p }

/-- Extracts the first row whose leading entry is not within EPSILON of
zero (the pivot), returning it together with the remaining rows. -/
def extractPivotRow : List (List ℚ) → Option (List ℚ × List (List ℚ))
  | [] => none
  | r :: rs =>
    if ¬ isZero (r.headD 0) then some (r, rs)
    else
      match extractPivotRow rs with
      | some (piv, rest) => some (piv, r :: rest)
      | none => none

/-- One elimination step on an augmented row: subtract the multiple of
the pivot row that cancels the leading entry, then drop that entry. -/
def elimRow (piv r : List ℚ) : List ℚ :=
  (List.zipWith (fun a b => a - (r.headD 0 / piv.headD 0) * b) r piv).tail

/-- Exact Gaussian elimination on augmented rows (each row is a matrix
row with its right-hand side appended); n is the number of unknowns.
Models the LinearSolver collaborator (QR decomposition + backward
substitution of src/linalg, which the spec excludes from the core with
the contract "solve(A, Y) -> coefficients, fails if singular"): in exact
arithmetic both return the unique solution of a nonsingular square
system and fail when only pivots within EPSILON of zero remain. -/
def gaussSolve : Nat → List (List ℚ) → Except RegError (List ℚ)
  | 0, _ => .ok []
  | n + 1, rows =>
    match extractPivotRow rows with
    | none => .error .notIndependent
    | some (piv, rest) => do
      let sol ← gaussSolve n (rest.map (elimRow piv))
      let back := (piv.tail.dropLast.zipWith (· * ·) sol).sum
      pure ((piv.getLastD 0 - back) / piv.headD 0 :: sol)

/-- solve(A, Y): the LinearSolver collaborator entry point. -/
def linSolve (A : List (List ℚ)) (Y : List ℚ) : Except RegError (List ℚ) :=
  gaussSolve A.length (List.zipWith (fun row y => row ++ [y]) A Y)

/-- Dot product of two coefficient lists (pairwise products summed). -/
def dotq (a b : List ℚ) : ℚ := (List.zipWith (· * ·) a b).sum

/-- A coefficient vector satisfies an augmented row when the dot product
of the row's matrix part with the vector equals the row's right-hand
side. -/
def RowSat (c row : List ℚ) : Prop := dotq row.dropLast c = row.getLastD 0

/-- options.slopeConstraints: { components, slopes }, either possibly absent. -/
structure SlopeOpts where
  components : Option (List Comp) := none
  slopes : Option (List Point) := none

/-- The recognized options of the regression entry points, with the
source's destructuring defaults.  onFit is not a field: the embedding
returns the list of (fit, epoch) invocations the callback would receive. -/
structure Options where
  deg : Nat := 1
  exact : Bool := true
  components : Option (List Comp) := none
  resolveCoeffs : Option Resolver := none
  epochs : Nat := 50
  initEpochs : Nat := 5
  pointConstraints : Option (List Point) := none
  slopeConstraints : Option SlopeOpts := none
  learningRate : Option ℚ := none

/-- The basis size the exact solver derives from its options:
deg = components.length - 1 when components are given, options.deg
otherwise; size = deg + 1. -/
def nrSize (opts : Options) : Nat :=
  (if (opts.components.getD []).length = 0 then opts.deg
   else (opts.components.getD []).length - 1) + 1

/-- src/regression/nonlinear.mjs _nonlinearRegression: the exact solver.
Builds the size x size design matrix A[i][j] = components[j](x_i) and
column Y[i] = y_i from the first `size` points, delegates to the
LinearSolver, and applies options.resolveCoeffs to the solution when
supplied. -/
def _nonlinearRegression (points : List Point) (opts : Options) : Except RegError (List ℚ) := do
  if points.length = 0 then throw .missingPoints
  let size := nrSize opts
  if points.length < size then throw .notEnoughPoints
  let components :=
    if (opts.components.getD []).length = 0 then getPolynomeComponents (size - 1)
    else opts.components.getD []
  let pts := points.take size
  let A := pts.map (fun p => components.map (fun fn => fn p.1))
  let Y := pts.map (fun p => p.2)
  let coefficients ← linSolve A Y
  match opts.resolveCoeffs with
  | some rc => rc (some coefficients)
  | none => pure coefficients

/-- The expandCoeffsFns chaining of decreaseLinearComplexity: the newest
step's resolver runs first, then the composition of the previous steps
(LIFO expansion). -/
def composeResolver (prev : Option Resolver) (cur : Resolver) : Resolver :=
  fun oc => do
    let p ← cur oc
    match prev with
    | some fn => fn (some p)
    | none => pure p

/-- The slope-constraint loop of decreaseLinearComplexity (one iteration
per supplied slope): eliminates one derivative-basis dimension, remaps
the remaining slope constraints, folds the primary basis by the step's K
vector (all but its last component) and keeps the primary constant
component untouched.  The first argument is the remaining iteration
count, the second the current index i into the remapped constraints. -/
def slopeLoop : Nat → Nat → List Point → List Comp → List Comp → Option Resolver →
    Except RegError (List Comp × Option Resolver)
  | 0, _, _, _, primary, expand => .ok (primary, expand)
  | fuel + 1, i, constraints, slopeComps, primary, expand => do
    let red ← _decreaseLinearComplexity slopeComps (constraints.getD i (0, 0))
    let constraints2 := red.remap constraints
    let cN := lastComp primary
    let cN1 := lastComp primary.dropLast
    let primary2 := red.updateComponents primary cN1 ++ [cN]
    slopeLoop fuel (i + 1) constraints2 red.components primary2
      (some (composeResolver expand red.resolveCoeffs))

/-- The point-constraint loop of decreaseLinearComplexity (one iteration
per supplied point, skipped once the basis is empty): eliminates one
basis dimension per point, remaps the remaining constraints, and chains
the remap and coefficient-expansion functions. -/
def pointLoop : Nat → Nat → List Point → List Comp → Option Resolver →
    (List Point → List Point) →
    Except RegError (List Comp × Option Resolver × (List Point → List Point))
  | 0, _, _, comps, expand, remapAcc => .ok (comps, expand, remapAcc)
  | fuel + 1, i, constraints, comps, expand, remapAcc =>
    if comps.length = 0 then pointLoop fuel (i + 1) constraints comps expand remapAcc
    else do
      let red ← _decreaseLinearComplexity comps (constraints.getD i (0, 0))
      let constraints2 := red.remap constraints
      pointLoop fuel (i + 1) constraints2 red.components
        (some (composeResolver expand red.resolveCoeffs))
        (fun pts => red.remap (remapAcc pts))

/-- getCoeffs when no elimination step ran:
coeffs => coeffs && coeffs.length ? coeffs : [[]].  The [[]] of the
source (a single empty row) degenerates to the empty coefficient list in
the flattened model. -/
def fallbackResolver : Resolver := fun oc =>
  match oc with
  | some cs => if cs.length ≠ 0 then .ok cs else .ok []
  | none => .ok []

/-- The record returned by the exported decreaseLinearComplexity. -/
structure DLCResult where
  components : List Comp
  resolveCoeffs : Resolver
  remap : List Point → List Point

/-- The options object of the exported decreaseLinearComplexity. -/
structure DLCOpts where
  slopeConstraints : Option SlopeOpts := none

/-- src/regression/nonlinear.mjs decreaseLinearComplexity: eliminates one
basis dimension per slope constraint (derivative basis) and then one per
point constraint (primary basis), producing the reduced basis, the
composed point remap and the composed LIFO coefficient expansion.  The
expansion first rebuilds the point-eliminated coefficients and then, when
slope constraints were used, expands the non-constant prefix through the
slope resolvers, passing the trailing constant coefficient through. -/
def decreaseLinearComplexity (components0 : List Comp) (points? : Option (List Point))
    (opts? : Option DLCOpts) : Except RegError DLCResult := do
  let points := points?.getD []
  let dim := components0.length
  if dim = 0 then throw .emptyComponents
  let sc := (opts?.getD {}).slopeConstraints
  let slopeComponents := (sc.getD {}).components.getD []
  let slopes := (sc.getD {}).slopes.getD []
  let sl := slopeComponents.length
  let spl := slopes.length
  let slopeStage ←
    if sl ≠ 0 ∧ spl ≠ 0 then do
      if dim - 1 ≠ sl then throw .incoherentSlopes
      if spl > sl then throw .overdeterminedSlopes
      slopeLoop spl 0 slopes slopeComponents components0 none
    else pure (components0, none)
  let (components, getSlopeCoeffs) := slopeStage
  let pointStage ← pointLoop points.length 0 points components none (fun pts => pts)
  let (comps, expandPt, remapAll) := pointStage
  let getCoeffs := match expandPt with | some fn => fn | none => fallbackResolver
  let resolve : Resolver :=
    match getSlopeCoeffs with
    | some gsc => fun oc => do
        let allCoeffs ← getCoeffs oc
        let completeHead ← gsc (some allCoeffs.dropLast)
        -- allCoeffs.slice(-1)[0] appended; getLast?.toList models the
        -- nonempty case (an empty allCoeffs would append undefined).
        pure (completeHead ++ allCoeffs.getLast?.toList)
    | none => getCoeffs
  pure { components := comps, resolveCoeffs := resolve, remap := remapAll }

/-- src/regression/nonlinear.mjs nonlinearRegression (the exact path):
with slope constraints present, pre-reduces via decreaseLinearComplexity
(which also consumes the supplied points as point constraints) and either
solves the remapped system or, when fully determined, expands directly;
otherwise delegates to _nonlinearRegression unchanged. -/
def nonlinearRegression (points : List Point) (opts : Options) : Except RegError (List ℚ) := do
  let compDeg := (opts.components.getD []).length
  let deg := if compDeg = 0 then opts.deg else compDeg - 1
  let slopes := ((opts.slopeConstraints.getD {}).slopes).getD []
  if slopes.length ≠ 0 then
    let components := if compDeg = 0 then getPolynomeComponents deg else opts.components.getD []
    let slopeComponents? :=
      if compDeg = 0 then
        some (((opts.slopeConstraints.getD {}).components).getD
          (get1stDerivativePolynomeComponents deg))
      else (opts.slopeConstraints.getD {}).components
    match slopeComponents? with
    | none => throw .missingSlopeComponents
    | some scomps =>
      if scomps.length = 0 then throw .missingSlopeComponents
      let dlc ← decreaseLinearComplexity components (some points)
        (some { slopeConstraints := some { components := some scomps, slopes := some slopes } })
      if dlc.components.length ≠ 0 then
        _nonlinearRegression (dlc.remap points)
          { components := some dlc.components, resolveCoeffs := some dlc.resolveCoeffs }
      else dlc.resolveCoeffs none
  else _nonlinearRegression points opts

/-- First-occurrence deduplication of the pointConstraints list, as done
with the uniquePointConstraints map keyed by the (x, y) values. -/
def dedupPointsGo (seen : List Point) : List Point → List Point
  | [] => []
  | p :: ps => if p ∈ seen then dedupPointsGo seen ps else p :: dedupPointsGo (p :: seen) ps

/-- Object.values(uniquePointConstraints): the distinct point
constraints in first-occurrence order. -/
def dedupPoints (l : List Point) : List Point := dedupPointsGo [] l

/-- Stable insertion by ascending x: a point is placed after all points
of smaller-or-equal x (models sortBy(points, p => p[0])). -/
def insertByX (p : Point) : List Point → List Point
  | [] => [p]
  | q :: qs => if p.1 < q.1 then p :: q :: qs else q :: insertByX p qs

/-- sortBy(points, p => p[0]): the points sorted by ascending x. -/
def sortByX (pts : List Point) : List Point := pts.foldl (fun acc p => insertByX p acc) []

/-- fyComponentsCoeffs: the evaluator x ↦ sum over i of
coeffs[i][0]*components[i](x), i below the coefficient count. -/
def fyComponentsCoeffs (components : List Comp) (coeffs : List ℚ) : ℚ → ℚ :=
  fun x => (List.zipWith (fun c fn => c * fn x) coeffs components).sum

/-- computePointsLoss: the mean squared error of an evaluator over the
given points (the loop runs over pointsSize = the original point count;
every list it is applied to has exactly that length). -/
def computePointsLoss (points : List Point) (fy : ℚ → ℚ) : ℚ :=
  (points.map (fun p => (fy p.1 - p.2) ^ 2)).sum / (points.length : ℚ)

/-- A fit as tracked inside the optimizer: { err, coeffs }. -/
structure InternalFit where
  err : ℚ
  coeffs : List ℚ
deriving DecidableEq, Repr

/-- A completed fit as returned by the optimizer:
{ err, coeffs, components, fy }. -/
structure FitRecord where
  err : ℚ
  coeffs : List ℚ
  components : List Comp
  fy : ℚ → ℚ

/-- What a call of the iterative path returns when it does not throw:
either the full fit record, or (on the early-stop path) the bare
coefficient matrix bestFit.coeffs. -/
inductive RegResult where
  | fit (f : FitRecord)
  | coeffsOnly (cs : List ℚ)

/-- True exactly when the returned value has the documented Fit shape
{err, coeffs, components, fy} rather than a bare coefficient matrix. -/
def RegResult.isFitRecord : RegResult → Bool
  | .fit _ => true
  | .coeffsOnly _ => false

/-- The (fit, epochIndex) arguments of the onFit invocations a call
would issue, in order. -/
abbrev OnFitLog := List (InternalFit × Nat)

/-- The random selection of getRandomPoints, made injectable: the oracle
gives, for each initialization epoch, the chosen indices into the
x-sorted point list (one per percentile zone in the source; the zone
boundaries come from the external percentile collaborator and
Math.random, which the spec requires to be injectable).  An index
outside the list models a selection the source could only produce
through an undefined array access, and makes the restart fail like any
caught exception. -/
def pickPoints (sorted : List Point) (idxs : List Nat) : Option (List Point) :=
  idxs.mapM (fun i => sorted.get? i)

/-- The loss computeLoss = computePointsLoss(points) paired with the
evaluator fyCoeffs = fyComponentsCoeffs(components) of the optimizer:
the MSE of a coefficient vector over the given points. -/
def lossOf (components : List Comp) (points : List Point) : List ℚ → ℚ :=
  fun cs => computePointsLoss points (fyComponentsCoeffs components cs)

/-- One randomized restart: exact-solve the selected points and score the
result over the (possibly remapped) full point set; any failure is
caught and discards the restart. -/
def epochFit (components : List Comp) (points sorted : List Point) (idxs : List Nat) :
    Option InternalFit :=
  match pickPoints sorted idxs with
  | none => none
  | some rps =>
    match nonlinearRegression rps { components := some components } with
    | .error _ => none
    | .ok coeffs => some ⟨lossOf components points coeffs, coeffs⟩

/-- The bestFit/secondBestFit bookkeeping of the restart loop. -/
def trackFits (st : Option InternalFit × Option InternalFit) (fit : InternalFit) :
    Option InternalFit × Option InternalFit :=
  match st with
  | (none, s) => (some fit, s)
  | (some b, s) =>
    if b.err > fit.err then (some fit, some b)
    else
      match s with
      | none => (some b, some fit)
      | some sb => if sb.err > fit.err then (some b, some fit) else (some b, some sb)

/-- The randomized-restart initialization: initEpochs restarts, keeping
the two lowest-error fits seen. -/
def initLoop (components : List Comp) (points sorted : List Point)
    (select : Nat → List Nat) (initEpochs : Nat) :
    Option InternalFit × Option InternalFit :=
  (List.range initEpochs).foldl
    (fun st i =>
      match epochFit components points sorted (select i) with
      | none => st
      | some fit => trackFits st fit)
    (none, none)

/-- The secondBestFit fallback: scale every coefficient of bestFit by
1.05, recompute the error, and fill the two slots, the lower error
becoming bestFit. -/
def synthesizeSecondBest (loss : List ℚ → ℚ) (b : InternalFit) :
    InternalFit × InternalFit :=
  let newCoeffs := b.coeffs.map (fun c => 105 / 100 * c)
  let err := loss newCoeffs
  let fit : InternalFit := ⟨err, newCoeffs⟩
  if b.err > err then (fit, b) else (b, fit)

/-- The learning-rate decay schedule: subtract 0.1 above 0.2, 0.05 above
0.05, 0.01 above 0.01, then Math.round(lr*100)/100. -/
def decayLR (lr : ℚ) : ℚ :=
  let l :=
    if lr > 1 / 5 then lr - 1 / 10
    else if lr > 1 / 20 then lr - 1 / 20
    else if lr > 1 / 100 then lr - 1 / 100
    else lr
  (round (l * 100) : ℤ) / 100

/-- One refinement candidate: step bestFit by delta, and when that
worsens the error, try the opposite direction and prefer it only when
strictly better than the first candidate. -/
def refineCandidate (loss : List ℚ → ℚ) (best : InternalFit) (delta : List ℚ) : InternalFit :=
  let cand1 := List.zipWith (· + ·) best.coeffs delta
  let err1 := loss cand1
  if best.err < err1 then
    let cand2 := List.zipWith (· - ·) best.coeffs delta
    let err2 := loss cand2
    if err2 < err1 then ⟨err2, cand2⟩ else ⟨err1, cand1⟩
  else ⟨err1, cand1⟩

/-- The refinement loop.  Each iteration steps bestFit by
learningRate*(secondBestFit - bestFit), trying the opposite direction
when the first candidate worsens the error; improvements are logged with
the 1-based epoch index and reset the learning rate, non-improvements
decay it.  vectorNorm(delta) <= EPSILON is expressed on the squared norm
(sqrt(s) <= EPSILON iff s <= EPSILON^2 for s >= 0,
see sqrt_le_eps_iff_sq). -/
def refineLoop (loss : List ℚ → ℚ) (lr0 : ℚ) :
    Nat → Nat → InternalFit → InternalFit → ℚ → OnFitLog → InternalFit × OnFitLog
  | 0, _, best, _, _, log => (best, log)
  | fuel + 1, i, best, second, learningRate, log =>
    let delta := List.zipWith (fun a b => (a - b) * learningRate) second.coeffs best.coeffs
    let nsq := (delta.map (fun d => d ^ 2)).sum
    if nsq ≤ EPSILON ^ 2 then (best, log)
    else
      let fit := refineCandidate loss best delta
      if best.err > fit.err then
        refineLoop loss lr0 fuel (i + 1) fit best lr0 (log ++ [(fit, i + 1)])
      else
        refineLoop loss lr0 fuel (i + 1) best
          (if second.err > fit.err then fit else second) (decayLR learningRate) log

/-- The initialization stage as a whole: the restart loop followed by
the secondBestFit fallback; none when every restart failed (bestFit is
undefined and the subsequent bestFit.coeffs access crashes). -/
def initStageBest (components : List Comp) (points : List Point)
    (select : Nat → List Nat) (initEpochs : Nat) : Option (InternalFit × InternalFit) :=
  match initLoop components points (sortByX points) select initEpochs with
  | (none, _) => none
  | (some b, some s) => some (b, s)
  | (some b, none) => some (synthesizeSecondBest (lossOf components points) b)

/-- The post-constraint stage of nonlinearGradientDescentRegression
(source lines 529-662): origPoints are the untouched input points (their
count gates the paths and scores the early exact solves), points the
possibly remapped ones, components the possibly reduced basis (size =
its dimension), UComponents the original basis the final fit is
expressed in, resolveCoeffs the constraint expansion when one exists. -/
def nlgdrCore (origPoints points : List Point) (components UComponents : List Comp)
    (resolveCoeffs : Option Resolver) (size : Nat) (epochs initEpochs : Nat) (lr : ℚ)
    (select : Nat → List Nat) : Except RegError (RegResult × OnFitLog) := do
  let pointsSize := origPoints.length
  if pointsSize < size then throw .notEnoughPoints
  if pointsSize = size then
    let coeffs ← nonlinearRegression points
      { components := some components, resolveCoeffs := resolveCoeffs }
    let fy := fyComponentsCoeffs UComponents coeffs
    pure (.fit ⟨computePointsLoss origPoints fy, coeffs, UComponents, fy⟩, [])
  else
    match initStageBest components points select initEpochs with
    | none => throw .typeError
    | some bs =>
      let best := bs.1
      let second := bs.2
      let log : OnFitLog := [(best, 0)]
      if isZero (second.err - best.err) then
        pure (.coeffsOnly best.coeffs, log)
      else
        let bl := refineLoop (lossOf components points) lr epochs 0 best second lr log
        let coeffs2 ←
          match resolveCoeffs with
          | some rc => rc (some bl.1.coeffs)
          | none => pure bl.1.coeffs
        pure (.fit ⟨bl.1.err, coeffs2, UComponents,
          fyComponentsCoeffs UComponents coeffs2⟩, bl.2)

/-- Decidable check of the onFit tail discipline: every entry's error is
strictly below its predecessor's and the epoch indices strictly
increase. -/
def chainOk : ℚ → Nat → OnFitLog → Bool
  | _, _, [] => true
  | prevErr, prevEpoch, (f, e) :: rest =>
    decide (f.err < prevErr) && decide (prevEpoch < e) && chainOk f.err e rest

/-- Decidable check of the whole onFit discipline: the first invocation
(if any) carries epoch index 0, later invocations carry strictly
increasing (hence 1-based) epoch indices and strictly decreasing
errors. -/
def logOk : OnFitLog → Bool
  | [] => true
  | (f, e) :: rest => decide (e = 0) && chainOk f.err 0 rest

/-- The constrained-path stage of nonlinearGradientDescentRegression
once the deduplicated constraints are at hand (source lines 486-527). -/
def nlgdrConstrained (origPoints : List Point) (constraints : List Point)
    (UComponents : List Comp) (slopeComponents? : Option (List Comp))
    (slopes : List Point) (size0 : Nat) (epochs initEpochs : Nat) (lr : ℚ)
    (select : Nat → List Nat) : Except RegError (RegResult × OnFitLog) := do
  if size0 = constraints.length then
    let coeffs ← nonlinearRegression constraints { components := some UComponents }
    let fy := fyComponentsCoeffs UComponents coeffs
    pure (.fit ⟨computePointsLoss origPoints fy, coeffs, UComponents, fy⟩, [])
  else do
    let opts2 ←
      if slopes.length ≠ 0 then
        match slopeComponents? with
        | none => throw RegError.missingSlopeComponents
        | some scomps =>
          pure (some (DLCOpts.mk (some (SlopeOpts.mk (some scomps) (some slopes)))))
      else pure (none : Option DLCOpts)
    let dlc ← decreaseLinearComplexity UComponents (some constraints) opts2
    let points2 := dlc.remap origPoints
    if dlc.components.length = 0 then
      let coeffs ← dlc.resolveCoeffs none
      let fy := fyComponentsCoeffs UComponents coeffs
      pure (.fit ⟨computePointsLoss origPoints fy, coeffs, UComponents, fy⟩, [])
    else
      nlgdrCore origPoints points2 dlc.components UComponents (some dlc.resolveCoeffs)
        dlc.components.length epochs initEpochs lr select

/-- src/regression/nonlinear.mjs nonlinearGradientDescentRegression: the
iterative path.  Validates the points, resolves the basis and learning
rate, handles the constraint pre-reduction (deduplicating the point
constraints first; reading pointConstraints.length while only slope
constraints were supplied is the undefined-property crash `typeError`),
and runs the core optimizer. -/
def nonlinearGradientDescentRegression (_points : List Point) (opts : Options)
    (select : Nat → List Nat) : Except RegError (RegResult × OnFitLog) := do
  let pointsSize := _points.length
  if pointsSize = 0 then throw .missingPoints
  let lr :=
    match opts.learningRate with
    | some l => if l = 0 then 1 / 2 else l
    | none => 1 / 2
  let compDeg := (opts.components.getD []).length
  let slopes := ((opts.slopeConstraints.getD {}).slopes).getD []
  let deg0 := if compDeg = 0 then opts.deg else compDeg - 1
  let size0 := deg0 + 1
  let UComponents :=
    if compDeg = 0 then getPolynomeComponents deg0 else opts.components.getD []
  let slopeComponents? :=
    if compDeg = 0 then
      some (((opts.slopeConstraints.getD {}).components).getD
        (get1stDerivativePolynomeComponents deg0))
    else (opts.slopeConstraints.getD {}).components
  if (opts.pointConstraints.getD []).length ≠ 0 ∨ slopes.length ≠ 0 then
    match opts.pointConstraints with
    | none => throw .typeError
    | some pcs =>
      nlgdrConstrained _points (dedupPoints pcs) UComponents slopeComponents? slopes
        size0 opts.epochs opts.initEpochs lr select
  else
    nlgdrCore _points _points UComponents UComponents none size0
      opts.epochs opts.initEpochs lr select

/-- The exported orchestrator: exact=true dispatches to the exact path
(whose coefficient matrix is wrapped as a bare-coefficients result and
issues no onFit calls), exact=false to the iterative path. -/
def nonlinear (points : List Point) (opts : Options) (select : Nat → List Nat) :
    Except RegError (RegResult × OnFitLog) :=
  if opts.exact then (nonlinearRegression points opts).map (fun cs => (.coeffsOnly cs, []))
  else nonlinearGradientDescentRegression points opts select

theorem isZero_ne_zero {v : ℚ} (h : ¬ isZero v) : v ≠ 0 := by
  intro h0
  refine h ?_
  rw [h0]
  show |(0 : ℚ)| ≤ EPSILON
  norm_num [EPSILON]

/-- Justification for expressing the vector-norm convergence check on
the squared norm: for a nonnegative radicand, sqrt(s) <= EPSILON is
exactly s <= EPSILON^2. -/
theorem sqrt_le_eps_iff_sq {s : ℝ} :
    Real.sqrt s ≤ (EPSILON : ℝ) ↔ s ≤ (EPSILON : ℝ) ^ 2 := by
  have heps : (0 : ℝ) ≤ (EPSILON : ℝ) := by norm_num [EPSILON]
  rw [Real.sqrt_le_iff]
  constructor
  · exact fun h => h.2
  · intro h
    exact ⟨heps, h⟩

theorem pivotAt_eq_lastComp (comps : List Comp) (h : comps ≠ []) (x : ℚ) :
    pivotAt comps x = lastComp comps x := by
  unfold pivotAt lastComp
  rw [List.getLastD_eq_getLast?, List.getLastD_eq_getLast?,
    List.getLast?_eq_getLast _ h,
    List.getLast?_eq_getLast (comps.map (fun fn => fn x)) (by simpa using h)]
  simp [List.getLast_map]

/-- C6. Degenerate-pivot detection: for a nonempty basis, the single
elimination step fails with the unstable-system error exactly when the
last basis function evaluated at the constraint's x has magnitude at
most EPSILON (for dim == 1 this is components[0], for dim > 1
components[dim-1]; both are the last entry), and succeeds otherwise. -/
theorem degenerate_pivot_detection (comps : List Comp) (p : Point) (h : comps ≠ []) :
    (_decreaseLinearComplexity comps p = .error .unstable ↔ isZero (lastComp comps p.1)) ∧
    ((_decreaseLinearComplexity comps p).isOk = true ↔ ¬ isZero (lastComp comps p.1)) := by
  match comps with
  | [] => exact absurd rfl h
  | [c0] =>
    have hl : lastComp [c0] p.1 = c0 p.1 := rfl
    rw [hl]
    simp only [_decreaseLinearComplexity]
    split_ifs with h1
    · simp [h1, Except.isOk, Except.toBool]
    · simp [h1, Except.isOk, Except.toBool]
  | c0 :: c1 :: rest =>
    have hl : pivotAt (c0 :: c1 :: rest) p.1 = lastComp (c0 :: c1 :: rest) p.1 :=
      pivotAt_eq_lastComp _ (by simp) p.1
    simp only [_decreaseLinearComplexity, hl]
    split_ifs with h1
    · simp [h1, Except.isOk, Except.toBool]
    · simp [h1, Except.isOk, Except.toBool]

/-- C6 witness: at basis [x ↦ x, _ ↦ 1] and point (2, 3) the pivot is 1,
which is not near zero, and the step succeeds. -/
theorem degenerate_pivot_detection_witness :
    ([fun x : ℚ => x, fun _ : ℚ => 1] ≠ ([] : List Comp)) ∧
    ((_decreaseLinearComplexity [fun x : ℚ => x, fun _ : ℚ => 1] ((2 : ℚ), (3 : ℚ)) =
        .error .unstable ↔ isZero (lastComp [fun x : ℚ => x, fun _ : ℚ => 1] 2)) ∧
      ((_decreaseLinearComplexity [fun x : ℚ => x, fun _ : ℚ => 1] ((2 : ℚ), (3 : ℚ))).isOk
        = true ↔ ¬ isZero (lastComp [fun x : ℚ => x, fun _ : ℚ => 1] 2))) :=
  ⟨by simp, degenerate_pivot_detection [fun x : ℚ => x, fun _ : ℚ => 1] (2, 3) (by simp)⟩

/-- C7. Exact-path truncation: the exact solver builds its design matrix
and right-hand side from the first `size` points only, so its result on
any point list equals its result on the list truncated to the first
`size` points. -/
theorem exactPath_truncation (points : List Point) (opts : Options) :
    _nonlinearRegression points opts = _nonlinearRegression (points.take (nrSize opts)) opts := by
  have hs : nrSize opts ≠ 0 := by unfold nrSize; exact Nat.succ_ne_zero _
  have e1 : (nrSize opts ⊓ points.length = 0) = (points.length = 0) := by
    apply propext
    constructor
    · intro h
      rcases Nat.min_eq_zero_iff.mp h with h | h
      · exact absurd h hs
      · exact h
    · intro h
      rw [h]
      simp
  have e2 : (nrSize opts ⊓ points.length < nrSize opts) = (points.length < nrSize opts) := by
    apply propext
    rw [min_lt_iff]
    constructor
    · rintro (h | h)
      · exact absurd h (lt_irrefl _)
      · exact h
    · exact Or.inr
  simp only [_nonlinearRegression, List.length_take, List.take_take, min_self, e1, e2]

theorem evalLC_nil_comps (cs : List ℚ) (x : ℚ) : evalLC [] cs x = 0 := by
  simp [evalLC]

theorem evalLC_cons (f : Comp) (fs : List Comp) (c : ℚ) (cs : List ℚ) (x : ℚ) :
    evalLC (f :: fs) (c :: cs) x = c * f x + evalLC fs cs x := by
  simp [evalLC]

theorem evalLC_append (fs : List Comp) (g : Comp) (cs : List ℚ) (c : ℚ)
    (h : cs.length = fs.length) (x : ℚ) :
    evalLC (fs ++ [g]) (cs ++ [c]) x = evalLC fs cs x + c * g x := by
  unfold evalLC
  rw [List.zipWith_append _ _ _ _ _ h]
  simp

theorem lastComp_eq_getLast (comps : List Comp) (hne : comps ≠ []) :
    lastComp comps = comps.getLast hne := by
  unfold lastComp
  rw [List.getLastD_eq_getLast?, List.getLast?_eq_getLast _ hne]
  rfl

theorem evalLC_dropLast_getLast (comps : List Comp) (hne : comps ≠ []) (cs : List ℚ)
    (c : ℚ) (x : ℚ) (hlen : cs.length = comps.length - 1) :
    evalLC comps (cs ++ [c]) x = evalLC comps.dropLast cs x + c * lastComp comps x := by
  conv_lhs => rw [← List.dropLast_append_getLast hne]
  rw [evalLC_append _ _ _ _ (by rw [List.length_dropLast]; exact hlen), lastComp_eq_getLast comps hne]

theorem evalLC_fold (g : Comp) (x : ℚ) (fs : List Comp) :
    ∀ (Ks cs : List ℚ), cs.length = fs.length → Ks.length = fs.length →
      evalLC (List.zipWith (fun fn K => fun v => fn v + K * g v) fs Ks) cs x
        = evalLC fs cs x + (List.zipWith (· * ·) cs Ks).sum * g x := by
  induction fs with
  | nil =>
    intro Ks cs h1 h2
    have hcs : cs = [] := List.length_eq_zero.mp (by simpa using h1)
    subst hcs
    simp [evalLC]
  | cons f fs ih =>
    intro Ks cs h1 h2
    cases cs with
    | nil => simp at h1
    | cons c cs =>
      cases Ks with
      | nil => simp at h2
      | cons K Ks =>
        simp only [List.zipWith_cons_cons, evalLC_cons, List.sum_cons]
        rw [ih Ks cs (by simpa using h1) (by simpa using h2)]
        ring

theorem evalLC_eval_map (fs : List Comp) (cs : List ℚ) (x : ℚ) :
    evalLC fs cs x = (List.zipWith (· * ·) cs (fs.map (fun fn => fn x))).sum := by
  unfold evalLC
  rw [List.zipWith_map_right]

theorem sum_zipWith_neg_div (xn : ℚ) (cs vs : List ℚ) :
    (List.zipWith (· * ·) cs (vs.map (fun v => -v / xn))).sum
      = -((List.zipWith (· * ·) cs vs).sum) / xn := by
  induction cs generalizing vs with
  | nil => simp
  | cons c cs ih =>
    cases vs with
    | nil => simp
    | cons v vs =>
      simp only [List.map_cons, List.zipWith_cons_cons, List.sum_cons]
      rw [ih vs, neg_add, add_div, ← mul_div_assoc, mul_neg]

theorem newXisOf_length (comps : List Comp) (p : Point) :
    (newXisOf comps p).length = comps.length - 1 := by
  simp [newXisOf]

theorem resolve_solves_constraint (comps : List Comp) (p : Point) (cs : List ℚ)
    (hne : comps ≠ []) (hcs : cs.length + 1 = comps.length)
    (hpiv : ¬ isZero (pivotAt comps p.1)) :
    evalLC comps
      (cs ++ [newYOf comps p + (List.zipWith (· * ·) cs (newXisOf comps p)).sum]) p.1 = p.2 := by
  have hxn : pivotAt comps p.1 ≠ 0 := isZero_ne_zero hpiv
  rw [evalLC_dropLast_getLast comps hne _ _ p.1 (by omega), evalLC_eval_map]
  unfold newXisOf newYOf
  rw [← List.map_dropLast, sum_zipWith_neg_div]
  rw [← pivotAt_eq_lastComp comps hne]
  rw [div_add_div_same, div_mul_cancel₀ _ hxn]
  ring

theorem roundTrip_pointwise (comps : List Comp) (p : Point) (cs : List ℚ)
    (hne : comps ≠ []) (hcs : cs.length + 1 = comps.length)
    (x y : ℚ) :
    (evalLC (redComponents comps p) cs x = redYMap comps p x y) ↔
    (evalLC comps
      (cs ++ [newYOf comps p + (List.zipWith (· * ·) cs (newXisOf comps p)).sum]) x = y) := by
  rw [evalLC_dropLast_getLast comps hne _ _ x (by omega)]
  unfold redComponents redUpdate redYMap
  rw [evalLC_fold (lastComp comps) x comps.dropLast (newXisOf comps p) cs
    (by rw [List.length_dropLast]; omega)
    (by rw [newXisOf_length, List.length_dropLast])]
  have hx : (newYOf comps p + (List.zipWith (· * ·) cs (newXisOf comps p)).sum) * lastComp comps x
      = newYOf comps p * lastComp comps x
        + (List.zipWith (· * ·) cs (newXisOf comps p)).sum * lastComp comps x := by
    ring
  rw [hx]
  constructor
  · intro h
    linarith
  · intro h
    linarith

theorem getLastD_irrel {α : Type} (l : List α) (hne : l ≠ []) (d d' : α) :
    l.getLastD d = l.getLastD d' := by
  rw [List.getLastD_eq_getLast?, List.getLastD_eq_getLast?, List.getLast?_eq_getLast _ hne]
  rfl

theorem getLastD_cons_ne {α : Type} (a : α) {l : List α} (hl : l ≠ []) (d : α) :
    (a :: l).getLastD d = l.getLastD d := by
  rw [List.getLastD_cons, getLastD_irrel l hl a d]

theorem dotq_nil_right (a : List ℚ) : dotq a [] = 0 := by
  simp [dotq]

theorem dotq_cons (a b : ℚ) (as bs : List ℚ) :
    dotq (a :: as) (b :: bs) = a * b + dotq as bs := by
  simp [dotq]

theorem dotq_comm : ∀ (a b : List ℚ), dotq a b = dotq b a := by
  intro a
  induction a with
  | nil => intro b; simp [dotq]
  | cons x xs ih =>
    intro b
    cases b with
    | nil => simp [dotq]
    | cons y ys => rw [dotq_cons, dotq_cons, ih ys, mul_comm]

theorem zipWith_dropLast (f : ℚ → ℚ → ℚ) : ∀ (u v : List ℚ), u.length = v.length →
    (List.zipWith f u v).dropLast = List.zipWith f u.dropLast v.dropLast := by
  intro u
  induction u with
  | nil => intro v _; simp
  | cons a u ih =>
    intro v h
    cases v with
    | nil => simp at h
    | cons b v =>
      cases u with
      | nil =>
        have hv : v = [] := List.length_eq_zero.mp (by simpa using h.symm)
        subst hv
        simp
      | cons a2 u2 =>
        cases v with
        | nil => simp at h
        | cons b2 v2 =>
          simp only [List.zipWith_cons_cons, List.dropLast_cons₂]
          rw [← List.zipWith_cons_cons, ih (b2 :: v2) (by simpa using h)]

theorem getLastD_zipWith (f : ℚ → ℚ → ℚ) : ∀ (u v : List ℚ), u.length = v.length → u ≠ [] →
    (List.zipWith f u v).getLastD 0 = f (u.getLastD 0) (v.getLastD 0) := by
  intro u
  induction u with
  | nil => intro v _ hne; exact absurd rfl hne
  | cons a u ih =>
    intro v h hne
    cases v with
    | nil => simp at h
    | cons b v =>
      cases u with
      | nil =>
        have hv : v = [] := List.length_eq_zero.mp (by simpa using h.symm)
        subst hv
        rfl
      | cons a2 u2 =>
        cases v with
        | nil => simp at h
        | cons b2 v2 =>
          rw [List.zipWith_cons_cons, getLastD_cons_ne _ (by simp) 0,
            ih (b2 :: v2) (by simpa using h) (by simp),
            getLastD_cons_ne a (by simp) 0, getLastD_cons_ne b (by simp) 0]

theorem dotq_sub_linear (f : ℚ) : ∀ (u v w : List ℚ), u.length = v.length →
    dotq (List.zipWith (fun a b => a - f * b) u v) w = dotq u w - f * dotq v w := by
  intro u
  induction u with
  | nil =>
    intro v w h
    have hv : v = [] := List.length_eq_zero.mp (by simpa using h.symm)
    subst hv
    simp [dotq]
  | cons a u ih =>
    intro v w h
    cases v with
    | nil => simp at h
    | cons b v =>
      cases w with
      | nil =>
        rw [dotq_nil_right, dotq_nil_right, dotq_nil_right]
        ring
      | cons c w =>
        rw [List.zipWith_cons_cons, dotq_cons, dotq_cons, dotq_cons,
          ih v w (by simpa using h)]
        ring

theorem elimRow_length (piv r : List ℚ) :
    (elimRow piv r).length = min r.length piv.length - 1 := by
  simp [elimRow]
  omega

theorem extractPivotRow_spec : ∀ (rows : List (List ℚ)) (piv : List ℚ)
    (rest : List (List ℚ)),
    extractPivotRow rows = some (piv, rest) →
    ¬ isZero (piv.headD 0) ∧ ∃ pre post, rows = pre ++ piv :: post ∧ rest = pre ++ post := by
  intro rows
  induction rows with
  | nil => intro piv rest h; simp [extractPivotRow] at h
  | cons r rs ih =>
    intro piv rest h
    simp only [extractPivotRow] at h
    split_ifs at h with hz
    · split at h
      · rename_i p rest' heq
        simp only [Option.some.injEq, Prod.mk.injEq] at h
        obtain ⟨h1, h2⟩ := h
        subst h1
        subst h2
        obtain ⟨hz2, pre, post, hrr, hre⟩ := ih _ _ heq
        exact ⟨hz2, r :: pre, post, by rw [List.cons_append, ← hrr],
          by rw [List.cons_append, ← hre]⟩
      · exact Option.noConfusion h
    · simp only [Option.some.injEq, Prod.mk.injEq] at h
      obtain ⟨h1, h2⟩ := h
      subst h1
      subst h2
      exact ⟨hz, [], rs, rfl, rfl⟩

theorem RowSat_cons_expand (p0 x0 : ℚ) (pt sol : List ℚ) (hpt : pt ≠ []) :
    RowSat (x0 :: sol) (p0 :: pt) ↔ p0 * x0 + dotq pt.dropLast sol = pt.getLastD 0 := by
  cases pt with
  | nil => exact absurd rfl hpt
  | cons q qs =>
    unfold RowSat
    rw [List.dropLast_cons₂, dotq_cons, getLastD_cons_ne p0 (by simp) 0]

theorem elimRow_eq (p0 r0 : ℚ) (pt rt : List ℚ) :
    elimRow (p0 :: pt) (r0 :: rt) = List.zipWith (fun a b => a - r0 / p0 * b) rt pt := by
  simp [elimRow]

theorem elimRow_sat_iff (p0 : ℚ) (pt : List ℚ) (r0 : ℚ) (rt : List ℚ) (x0 : ℚ)
    (sol : List ℚ) (hlen : rt.length = pt.length) (hptne : pt ≠ []) (hrtne : rt ≠ [])
    (hp0 : p0 ≠ 0) (hpiv : RowSat (x0 :: sol) (p0 :: pt)) :
    RowSat sol (elimRow (p0 :: pt) (r0 :: rt)) ↔ RowSat (x0 :: sol) (r0 :: rt) := by
  rw [elimRow_eq, RowSat_cons_expand r0 x0 rt sol hrtne]
  rw [RowSat_cons_expand p0 x0 pt sol hptne] at hpiv
  unfold RowSat
  rw [zipWith_dropLast _ rt pt hlen,
    dotq_sub_linear _ rt.dropLast pt.dropLast sol (by simp [hlen]),
    getLastD_zipWith _ rt pt hlen hrtne]
  have hfp : r0 / p0 * p0 = r0 := div_mul_cancel₀ r0 hp0
  have hkey : r0 / p0 * dotq pt.dropLast sol
      = r0 / p0 * pt.getLastD 0 - r0 * x0 := by
    have h2 : r0 / p0 * (p0 * x0) = r0 * x0 := by rw [← mul_assoc, hfp]
    have h3 : r0 / p0 * (p0 * x0 + dotq pt.dropLast sol)
        = r0 / p0 * (p0 * x0) + r0 / p0 * dotq pt.dropLast sol := by ring
    rw [hpiv] at h3
    linarith
  constructor
  · intro h
    linarith
  · intro h
    linarith

/-- Solution-set equivalence underlying the round-trip: a reduced
vector solves the reduced system on the remapped remaining N-1 points
exactly when its resolveCoeffs expansion solves the original
N-dimensional system on those points together with the constraint
point. -/
theorem reduced_system_solutions_iff (comps : List Comp) (x0 y0 : ℚ) (red : Reduced)
    (hstep : _decreaseLinearComplexity comps (x0, y0) = .ok red)
    (cs full : List ℚ) (hcs : cs.length + 1 = comps.length)
    (hres : red.resolveCoeffs (some cs) = .ok full)
    (pts : List Point) (hpts : pts.length + 1 = comps.length) :
    (∀ q ∈ red.remap pts, evalLC red.components cs q.1 = q.2) ↔
    (∀ q ∈ pts ++ [((x0 : ℚ), (y0 : ℚ))], evalLC comps full q.1 = q.2) := by
  cases comps with
  | nil => simp [_decreaseLinearComplexity] at hstep
  | cons c0 rest =>
    cases rest with
    | nil =>
      simp only [_decreaseLinearComplexity] at hstep
      split_ifs at hstep with hz
      · have hne : c0 (x0, y0).1 ≠ 0 := isZero_ne_zero hz
        injection hstep with hred
        subst hred
        simp only at hres
        injection hres with hfull
        subst hfull
        have hcs0 : cs = [] := List.length_eq_zero.mp
          (by simp only [List.length_cons, List.length_nil] at hcs; omega)
        have hpts0 : pts = [] := List.length_eq_zero.mp
          (by simp only [List.length_cons, List.length_nil] at hpts; omega)
        subst hcs0
        subst hpts0
        simp only [List.nil_append, List.mem_singleton, List.not_mem_nil, false_implies,
          implies_true, true_iff]
        intro q hq
        subst hq
        rw [evalLC_cons, evalLC_nil_comps]
        field_simp
    | cons c1 rest2 =>
      simp only [_decreaseLinearComplexity] at hstep
      split_ifs at hstep with hz
      · injection hstep with hred
        subst hred
        simp only [redResolve] at hres
        rw [if_pos (by simp only [List.length_cons] at hcs ⊢; omega)] at hres
        injection hres with hfull
        subst hfull
        have hcons : evalLC (c0 :: c1 :: rest2)
            (cs ++ [newYOf (c0 :: c1 :: rest2) (x0, y0) +
              (List.zipWith (· * ·) cs (newXisOf (c0 :: c1 :: rest2) (x0, y0))).sum]) x0 = y0 := by
          have := resolve_solves_constraint (c0 :: c1 :: rest2) (x0, y0) cs (by simp) hcs hz
          simpa using this
        constructor
        · intro h q hq
          rcases List.mem_append.mp hq with hq | hq
          · exact (roundTrip_pointwise (c0 :: c1 :: rest2) (x0, y0) cs (by simp) hcs q.1 q.2).mp
              (h (q.1, redYMap (c0 :: c1 :: rest2) (x0, y0) q.1 q.2)
                (List.mem_map.mpr ⟨q, hq, rfl⟩))
          · rw [List.mem_singleton.mp hq]
            exact hcons
        · intro h q hq
          rcases List.mem_map.mp hq with ⟨a, ha, rfl⟩
          exact (roundTrip_pointwise (c0 :: c1 :: rest2) (x0, y0) cs (by simp) hcs a.1 a.2).mpr
            (h a (List.mem_append.mpr (Or.inl ha)))

/-- Concrete inputs for the round-trip witness: the basis of y = Ax + B
and the reduction of its last (constant) component by the point (1, 3). -/
def rtComps : List Comp := [fun x => x, fun _ => 1]

/-- The reduced system the witness reduction produces. -/
def rtRed : Reduced :=
  { components := redComponents rtComps (1, 3)
    yMap := redYMap rtComps (1, 3)
    remap := fun pts => pts.map (fun q => (q.1, redYMap rtComps (1, 3) q.1 q.2))
    resolveCoeffs := redResolve rtComps (1, 3)
    updateComponents := redUpdate rtComps (1, 3) }

/-- Soundness and uniqueness of the LinearSolver model: when Gaussian
elimination on a square augmented system (row count = unknown count,
each row one entry longer) succeeds, its result has the right length,
satisfies every row, and is the only vector of that length doing so
(every pivot it used has magnitude above EPSILON, hence is nonzero). -/
theorem gaussSolve_spec : ∀ (n : Nat) (rows : List (List ℚ)) (c : List ℚ),
    rows.length = n →
    (∀ row ∈ rows, row.length = n + 1) →
    gaussSolve n rows = .ok c →
    c.length = n ∧ (∀ row ∈ rows, RowSat c row) ∧
      (∀ c', c'.length = n → (∀ row ∈ rows, RowSat c' row) → c' = c) := by
  intro n
  induction n with
  | zero =>
    intro rows c hcount _ h
    have hr : rows = [] := List.length_eq_zero.mp hcount
    subst hr
    simp only [gaussSolve] at h
    injection h with hc
    subst hc
    refine ⟨rfl, by simp, ?_⟩
    intro c' hclen _
    exact List.length_eq_zero.mp hclen
  | succ n ih =>
    intro rows c hcount hshape h
    simp only [gaussSolve] at h
    split at h
    · exact Except.noConfusion h
    · rename_i piv rest heq
      obtain ⟨hpz, pre, post, hrows, hrest⟩ := extractPivotRow_spec rows piv rest heq
      have hpivmem : piv ∈ rows := by rw [hrows]; simp
      have hpivlen : piv.length = n + 2 := by
        have := hshape piv hpivmem
        omega
      have hrestmem : ∀ x ∈ rest, x ∈ rows := by
        intro x hx
        rw [hrest] at hx
        rw [hrows]
        rcases List.mem_append.mp hx with h1 | h1
        · exact List.mem_append.mpr (Or.inl h1)
        · exact List.mem_append.mpr (Or.inr (List.mem_cons_of_mem _ h1))
      have hrestlen : ∀ x ∈ rest, x.length = n + 2 := by
        intro x hx
        have := hshape x (hrestmem x hx)
        omega
      have hrestcount : rest.length = n := by
        have h1 : rows.length = pre.length + post.length + 1 := by
          rw [hrows]
          simp [List.length_append]
          omega
        have h2 : rest.length = pre.length + post.length := by
          rw [hrest]
          simp [List.length_append]
        omega
      cases piv with
      | nil => simp at hpivlen
      | cons p0 pt =>
        have hptne : pt ≠ [] := by
          intro hh
          rw [hh] at hpivlen
          simp at hpivlen
        have hp0 : p0 ≠ 0 := by
          have := isZero_ne_zero hpz
          simpa using this
        cases hsol : gaussSolve n (rest.map (elimRow (p0 :: pt))) with
        | error e =>
          rw [hsol] at h
          simp [bind, Except.bind] at h
        | ok sol =>
          rw [hsol] at h
          simp only [bind, Except.bind, pure, Except.pure] at h
          injection h with hc
          have helimshape : ∀ er ∈ rest.map (elimRow (p0 :: pt)), er.length = n + 1 := by
            intro er her
            rcases List.mem_map.mp her with ⟨x, hx, rfl⟩
            rw [elimRow_length, hrestlen x hx, hpivlen]
            omega
          obtain ⟨hsollen, hsolsat, hsoluniq⟩ := ih (rest.map (elimRow (p0 :: pt))) sol
            (by simp [hrestcount]) helimshape hsol
          subst hc
          have hx0 : ((p0 :: pt).getLastD 0
                - (List.zipWith (· * ·) (p0 :: pt).tail.dropLast sol).sum) / (p0 :: pt).headD 0
              = (pt.getLastD 0 - dotq pt.dropLast sol) / p0 := by
            rw [getLastD_cons_ne p0 hptne 0]
            rfl
          rw [hx0]
          set x0 := (pt.getLastD 0 - dotq pt.dropLast sol) / p0 with hx0def
          have hpivsat : RowSat (x0 :: sol) (p0 :: pt) := by
            rw [RowSat_cons_expand p0 x0 pt sol hptne, hx0def]
            field_simp
          have hsatrest : ∀ x ∈ rest, RowSat (x0 :: sol) x := by
            intro x hx
            cases x with
            | nil =>
              have := hrestlen [] hx
              simp at this
            | cons r0 rt =>
              have hxlen := hrestlen (r0 :: rt) hx
              have hrtne : rt ≠ [] := by
                intro hh
                rw [hh] at hxlen
                simp at hxlen
              refine (elimRow_sat_iff p0 pt r0 rt x0 sol ?_ hptne hrtne hp0 hpivsat).mp
                (hsolsat _ (List.mem_map.mpr ⟨r0 :: rt, hx, rfl⟩))
              simp only [List.length_cons] at hxlen hpivlen
              omega
          refine ⟨by simp [hsollen], ?_, ?_⟩
          · intro row hrow
            rw [hrows] at hrow
            rcases List.mem_append.mp hrow with h1 | h1
            · exact hsatrest row (by rw [hrest]; exact List.mem_append.mpr (Or.inl h1))
            · rcases List.mem_cons.mp h1 with h2 | h2
              · rw [h2]
                exact hpivsat
              · exact hsatrest row (by rw [hrest]; exact List.mem_append.mpr (Or.inr h2))
          · intro c' hclen hcsat
            cases c' with
            | nil => simp at hclen
            | cons c0' sol' =>
              have hsatpiv' : RowSat (c0' :: sol') (p0 :: pt) := hcsat _ hpivmem
              have hsol'sat : ∀ er ∈ rest.map (elimRow (p0 :: pt)), RowSat sol' er := by
                intro er her
                rcases List.mem_map.mp her with ⟨x, hx, rfl⟩
                cases x with
                | nil =>
                  have := hrestlen [] hx
                  simp at this
                | cons r0 rt =>
                  have hxlen := hrestlen (r0 :: rt) hx
                  have hrtne : rt ≠ [] := by
                    intro hh
                    rw [hh] at hxlen
                    simp at hxlen
                  refine (elimRow_sat_iff p0 pt r0 rt c0' sol' ?_ hptne hrtne hp0 hsatpiv').mpr
                    (hcsat _ (hrestmem _ hx))
                  simp only [List.length_cons] at hxlen hpivlen
                  omega
              have hsol' : sol' = sol := by
                refine hsoluniq sol' ?_ hsol'sat
                simp only [List.length_cons] at hclen
                omega
              rw [hsol'] at hsatpiv'
              have hc0 : c0' = x0 := by
                rw [RowSat_cons_expand p0 c0' pt sol hptne] at hsatpiv'
                rw [hx0def, eq_div_iff hp0, mul_comm]
                linarith
              rw [hc0, hsol']

/-- A vector satisfies the augmented row built from a point exactly when
it solves the linear-combination equation at that point. -/
theorem RowSat_point (components : List Comp) (c : List ℚ) (q : Point) :
    RowSat c (components.map (fun fn => fn q.1) ++ [q.2]) ↔
      evalLC components c q.1 = q.2 := by
  unfold RowSat
  rw [List.dropLast_concat, List.getLastD_concat, dotq_comm, evalLC_eval_map]
  rfl

/-- Soundness and uniqueness of the LinearSolver model on the square
design system built from as many points as components: the returned
coefficients solve every point's equation and are the unique vector of
that length doing so. -/
theorem linSolve_points_spec (points : List Point) (components : List Comp) (c : List ℚ)
    (hlen : points.length = components.length)
    (h : linSolve (points.map (fun p => components.map (fun fn => fn p.1)))
        (points.map (fun p => p.2)) = .ok c) :
    c.length = components.length ∧ (∀ q ∈ points, evalLC components c q.1 = q.2) ∧
    (∀ c', c'.length = components.length →
      (∀ q ∈ points, evalLC components c' q.1 = q.2) → c' = c) := by
  unfold linSolve at h
  rw [List.zipWith_map_left, List.zipWith_map_right, List.zipWith_same, List.length_map] at h
  have hspec := gaussSolve_spec points.length
    (points.map (fun q => components.map (fun fn => fn q.1) ++ [q.2])) c
    (by simp)
    (by
      intro row hrow
      rcases List.mem_map.mp hrow with ⟨q, _, rfl⟩
      simp [hlen])
    h
  obtain ⟨hclen, hsat, huniq⟩ := hspec
  refine ⟨by rw [hclen, hlen], ?_, ?_⟩
  · intro q hq
    exact (RowSat_point components c q).mp (hsat _ (List.mem_map.mpr ⟨q, hq, rfl⟩))
  · intro c' hclen' hsat'
    refine huniq c' (by rw [hclen', hlen]) ?_
    intro row hrow
    rcases List.mem_map.mp hrow with ⟨q, hq, rfl⟩
    exact (RowSat_point components c' q).mpr (hsat' q hq)

/-- Inverting the exact solver on a square system: a successful call
with an explicit basis of the same size as the point list reduces to a
successful LinearSolver call on the design system, followed by the
optional resolveCoeffs expansion. -/
theorem nr_square_inversion (points : List Point) (components : List Comp)
    (rc? : Option Resolver) (c : List ℚ)
    (hlen : points.length = components.length) (hcomp : components ≠ [])
    (h : _nonlinearRegression points
        { components := some components, resolveCoeffs := rc? } = .ok c) :
    ∃ cs, linSolve (points.map (fun p => components.map (fun fn => fn p.1)))
        (points.map (fun p => p.2)) = .ok cs ∧
      (∀ rc, rc? = some rc → rc (some cs) = .ok c) ∧
      (rc? = none → cs = c) := by
  have hcl : components.length ≠ 0 := by
    intro hh
    exact hcomp (List.length_eq_zero.mp hh)
  have hp0 : points.length ≠ 0 := by omega
  have hsize : nrSize { components := some components, resolveCoeffs := rc? }
      = components.length := by
    simp only [nrSize, Option.getD_some]
    rw [if_neg hcl]
    omega
  simp only [_nonlinearRegression] at h
  rw [if_neg hp0] at h
  simp only [bind, Except.bind, pure, Except.pure] at h
  rw [hsize] at h
  rw [if_neg (by omega)] at h
  simp only [Option.getD_some] at h
  rw [if_neg hcl] at h
  rw [← hlen, List.take_length] at h
  cases hls : linSolve (points.map (fun p => components.map (fun fn => fn p.1)))
      (points.map (fun p => p.2)) with
  | error e =>
    rw [hls] at h
    exact Except.noConfusion h
  | ok cs =>
    rw [hls] at h
    refine ⟨cs, rfl, ?_, ?_⟩
    · intro rc hrc
      rw [hrc] at h
      exact h
    · intro hrc
      rw [hrc] at h
      exact Except.ok.inj h

theorem redComponents_length (comps : List Comp) (p : Point) :
    (redComponents comps p).length = comps.length - 1 := by
  simp [redComponents, redUpdate, newXisOf]

/-- C1. Reduction round-trip: for a basis of size N >= 1 and a point at
which the elimination pivot is not near zero, solving the reduced system
on the remapped remaining N-1 points and expanding through
resolveCoeffs — dispatched exactly as the source does, with the empty
reduced basis expanded directly — yields the same coefficient vector as
solving the unreduced N-dimensional system on those points together
with the constraint point directly (exact equality over the rationals,
subsuming the EPSILON-scale tolerance). -/
theorem reduction_roundTrip (comps : List Comp) (x0 y0 : ℚ) (red : Reduced)
    (hstep : _decreaseLinearComplexity comps (x0, y0) = .ok red)
    (pts : List Point) (hpts : pts.length + 1 = comps.length)
    (c1 c2 : List ℚ)
    (hreduced : (if red.components.length ≠ 0 then
        _nonlinearRegression (red.remap pts)
          { components := some red.components, resolveCoeffs := some red.resolveCoeffs }
      else red.resolveCoeffs none) = .ok c1)
    (hdirect : _nonlinearRegression (pts ++ [((x0 : ℚ), (y0 : ℚ))])
        { components := some comps } = .ok c2) :
    c1 = c2 := by
  have hcompne : comps ≠ [] := by
    intro hh
    rw [hh] at hpts
    simp at hpts
  -- uniqueness from the direct solve
  obtain ⟨cs2, hls2, _, hcs2⟩ := nr_square_inversion (pts ++ [(x0, y0)]) comps none c2
    (by simp; omega) hcompne hdirect
  have hdspec := linSolve_points_spec (pts ++ [(x0, y0)]) comps cs2 (by simp; omega) hls2
  obtain ⟨_, _, huniq⟩ := hdspec
  have hcs2eq : cs2 = c2 := hcs2 rfl
  subst hcs2eq
  -- the reduced side satisfies the unreduced system
  cases comps with
  | nil => exact absurd rfl hcompne
  | cons c0 rest =>
    cases rest with
    | nil =>
      -- N = 1: empty reduced basis, direct expansion
      simp only [_decreaseLinearComplexity] at hstep
      split_ifs at hstep with hz
      · have hne : c0 x0 ≠ 0 := by
          have := isZero_ne_zero hz
          simpa using this
        injection hstep with hred
        subst hred
        replace hreduced : Except.ok ([y0 / c0 x0] : List ℚ) = Except.ok c1 := hreduced
        injection hreduced with hc1
        subst hc1
        have hpts0 : pts = [] := List.length_eq_zero.mp
          (by simp only [List.length_cons, List.length_nil] at hpts; omega)
        subst hpts0
        refine huniq _ (by simp) ?_
        intro q hq
        simp only [List.nil_append, List.mem_singleton] at hq
        subst hq
        rw [evalLC_cons, evalLC_nil_comps]
        field_simp
    | cons c1' rest2 =>
      -- N >= 2: solve the reduced system, then expand
      simp only [_decreaseLinearComplexity] at hstep
      split_ifs at hstep with hz
      · injection hstep with hred
        subst hred
        have hredlen : (redComponents (c0 :: c1' :: rest2) (x0, y0)).length
            = (c0 :: c1' :: rest2).length - 1 := redComponents_length _ _
        have hcond : (redComponents (c0 :: c1' :: rest2) (x0, y0)).length ≠ 0 := by
          rw [hredlen]
          simp only [List.length_cons]
          omega
        rw [if_pos hcond] at hreduced
        replace hreduced :
            _nonlinearRegression
              (pts.map (fun q => (q.1, redYMap (c0 :: c1' :: rest2) (x0, y0) q.1 q.2)))
              { components := some (redComponents (c0 :: c1' :: rest2) (x0, y0)),
                resolveCoeffs := some (redResolve (c0 :: c1' :: rest2) (x0, y0)) }
              = .ok c1 := hreduced
        obtain ⟨cs, hls, hres0, _⟩ := nr_square_inversion _ _ _ c1
          (by
            simp only [List.length_map, hredlen, List.length_cons]
            simp only [List.length_cons] at hpts
            omega)
          (by
            intro hh
            have := congrArg List.length hh
            rw [hredlen] at this
            simp at this)
          hreduced
        have hres := hres0 _ rfl
        have hrspec := linSolve_points_spec _ _ cs
          (by
            simp only [List.length_map, hredlen, List.length_cons]
            simp only [List.length_cons] at hpts
            omega)
          hls
        obtain ⟨hcslen, hcssat, _⟩ := hrspec
        -- expansion through redResolve
        have hcslen2 : cs.length + 1 = (c0 :: c1' :: rest2).length := by
          rw [hcslen, hredlen]
          simp
        simp only [redResolve] at hres
        rw [if_pos (by simp only [List.length_cons] at hcslen2 ⊢; omega)] at hres
        injection hres with hc1
        subst hc1
        refine huniq _ (by
          simp only [List.length_append, List.length_cons, List.length_nil]
          simp only [List.length_cons] at hcslen2
          omega) ?_
        intro q hq
        rcases List.mem_append.mp hq with hq1 | hq1
        · refine (roundTrip_pointwise (c0 :: c1' :: rest2) (x0, y0) cs (by simp) hcslen2
            q.1 q.2).mp ?_
          exact hcssat (q.1, redYMap (c0 :: c1' :: rest2) (x0, y0) q.1 q.2)
            (List.mem_map.mpr ⟨q, hq1, rfl⟩)
        · rw [List.mem_singleton.mp hq1]
          have := resolve_solves_constraint (c0 :: c1' :: rest2) (x0, y0) cs (by simp)
            hcslen2 hz
          simpa using this

/-- C1 witness: reducing the basis [x, 1] by (1, 3), the reduced solve
on the remapped remaining point (2, 5) expanded through resolveCoeffs
and the direct two-point solve both return [2, 1]. -/
theorem reduction_roundTrip_witness :
    ((if rtRed.components.length ≠ 0 then
        _nonlinearRegression (rtRed.remap [((2 : ℚ), (5 : ℚ))])
          { components := some rtRed.components, resolveCoeffs := some rtRed.resolveCoeffs }
      else rtRed.resolveCoeffs none) = .ok [2, 1]) ∧
    (_nonlinearRegression [((2 : ℚ), (5 : ℚ)), ((1 : ℚ), (3 : ℚ))]
        { components := some rtComps } = .ok [2, 1]) ∧
    ([2, 1] : List ℚ) = [2, 1] :=
  ⟨by rfl, by rfl,
    reduction_roundTrip rtComps 1 3 rtRed rfl [(2, 5)] (by simp [rtComps]) [2, 1] [2, 1]
      (by rfl) (by rfl)⟩

theorem chainOk_append (f : InternalFit) (e : Nat) :
    ∀ (l : OnFitLog) (e0 : ℚ) (n0 : Nat),
      chainOk e0 n0 l = true →
      (match l.getLast? with
       | none => f.err < e0 ∧ n0 < e
       | some (g, m) => f.err < g.err ∧ m < e) →
      chainOk e0 n0 (l ++ [(f, e)]) = true := by
  intro l
  induction l with
  | nil =>
    intro e0 n0 _ hcond
    simp only [List.getLast?_nil] at hcond
    simp only [List.nil_append, chainOk, Bool.and_eq_true, decide_eq_true_eq]
    exact ⟨⟨hcond.1, hcond.2⟩, trivial⟩
  | cons hd tl ih =>
    intro e0 n0 hchain hcond
    obtain ⟨g', m'⟩ := hd
    simp only [chainOk, Bool.and_eq_true, decide_eq_true_eq] at hchain
    simp only [List.cons_append, chainOk, Bool.and_eq_true, decide_eq_true_eq]
    refine ⟨hchain.1, ih g'.err m' hchain.2 ?_⟩
    cases tl with
    | nil =>
      simp only [List.getLast?_singleton] at hcond
      simp only [List.getLast?_nil]
      exact hcond
    | cons h2 t2 =>
      rw [List.getLast?_cons_cons] at hcond
      exact hcond

theorem refineLoop_log_extends (loss : List ℚ → ℚ) (lr0 : ℚ) :
    ∀ (fuel i : Nat) (best second : InternalFit) (lrr : ℚ) (log : OnFitLog),
      ∃ ext, (refineLoop loss lr0 fuel i best second lrr log).2 = log ++ ext := by
  intro fuel
  induction fuel with
  | zero =>
    intro i best second lrr log
    exact ⟨[], (List.append_nil log).symm⟩
  | succ fuel ih =>
    intro i best second lrr log
    simp only [refineLoop]
    set F := refineCandidate loss best
      (List.zipWith (fun a b => (a - b) * lrr) second.coeffs best.coeffs) with hF
    split_ifs with h1 h2 h3
    · exact ⟨[], (List.append_nil log).symm⟩
    · obtain ⟨ext, hext⟩ := ih (i + 1) F best lr0 (log ++ [(F, i + 1)])
      exact ⟨_, by rw [hext, List.append_assoc]⟩
    · exact ih (i + 1) best _ (decayLR lrr) log
    · exact ih (i + 1) best _ (decayLR lrr) log

theorem logOk_append (log : OnFitLog) (fit : InternalFit) (e : Nat)
    (hok : logOk log = true) (hne : log ≠ [])
    (hcond : ∀ g m, log.getLast? = some (g, m) → fit.err < g.err ∧ m < e) :
    logOk (log ++ [(fit, e)]) = true := by
  cases log with
  | nil => exact absurd rfl hne
  | cons hd tl =>
    obtain ⟨f0, e0⟩ := hd
    simp only [logOk, Bool.and_eq_true, decide_eq_true_eq] at hok
    simp only [List.cons_append, logOk, Bool.and_eq_true, decide_eq_true_eq]
    refine ⟨hok.1, ?_⟩
    cases tl with
    | nil =>
      have hc := hcond f0 e0 (by simp)
      simp only [List.nil_append, chainOk, Bool.and_eq_true, decide_eq_true_eq]
      exact ⟨⟨hc.1, by omega⟩, trivial⟩
    | cons h2 t2 =>
      refine chainOk_append fit e (h2 :: t2) f0.err 0 hok.2 ?_
      have hlast2 : ((f0, e0) :: h2 :: t2).getLast? = (h2 :: t2).getLast? :=
        List.getLast?_cons_cons
      rw [List.getLast?_eq_getLast (h2 :: t2) (by simp)]
      have hc := hcond ((h2 :: t2).getLast (by simp)).1 ((h2 :: t2).getLast (by simp)).2
        (by rw [hlast2, List.getLast?_eq_getLast (h2 :: t2) (by simp)])
      exact hc

theorem refineLoop_logOk (loss : List ℚ → ℚ) (lr0 : ℚ) :
    ∀ (fuel i : Nat) (best second : InternalFit) (lrr : ℚ) (log : OnFitLog),
      logOk log = true →
      (∀ g m, log.getLast? = some (g, m) → g.err = best.err ∧ m ≤ i) →
      log ≠ [] →
      logOk (refineLoop loss lr0 fuel i best second lrr log).2 = true := by
  intro fuel
  induction fuel with
  | zero =>
    intro i best second lrr log hok _ _
    simpa [refineLoop] using hok
  | succ fuel ih =>
    intro i best second lrr log hok hlast hne
    simp only [refineLoop]
    split_ifs with h1 h2 h3
    · exact hok
    · -- improvement: append (fit, i+1) and recurse with fit as new best
      refine ih (i + 1) _ best lr0 _ ?_ ?_ (by simp)
      · refine logOk_append log _ (i + 1) hok hne ?_
        intro g m hg
        obtain ⟨h4, h5⟩ := hlast g m hg
        exact ⟨by rw [h4]; exact h2, by omega⟩
      · intro g m hg
        rw [List.getLast?_concat] at hg
        simp only [Option.some.injEq, Prod.mk.injEq] at hg
        exact ⟨by rw [hg.1], by omega⟩
    · exact ih (i + 1) best _ (decayLR lrr) log hok
        (fun g m hg => ⟨(hlast g m hg).1, Nat.le_succ_of_le (hlast g m hg).2⟩) hne
    · exact ih (i + 1) best _ (decayLR lrr) log hok
        (fun g m hg => ⟨(hlast g m hg).1, Nat.le_succ_of_le (hlast g m hg).2⟩) hne

/-- C5. onFit discipline: whenever the iterative-path core returns, the
onFit invocation list has a first entry with epoch index 0 carrying the
best fit produced by the randomized-restart initialization (including
its secondBestFit fallback), and every later entry carries a strictly
larger (hence 1-based) epoch index and a strictly lower error than its
predecessor, invocations happening only on strict improvement. -/
theorem onFit_discipline (origPoints points : List Point)
    (components UComponents : List Comp) (rc : Option Resolver)
    (size epochs initEpochs : Nat) (lr : ℚ) (select : Nat → List Nat)
    (r : RegResult × OnFitLog)
    (h : nlgdrCore origPoints points components UComponents rc size epochs initEpochs
      lr select = .ok r) :
    logOk r.2 = true ∧
    (∀ f e rest, r.2 = (f, e) :: rest →
      e = 0 ∧ ∃ bs, initStageBest components points select initEpochs = some bs ∧ f = bs.1) := by
  simp only [nlgdrCore] at h
  split at h
  · simp only [throw, throwThe, MonadExceptOf.throw, bind, Except.bind] at h
    exact Except.noConfusion h
  · simp only [bind, Except.bind, pure, Except.pure] at h
    split at h
    · cases hnr : nonlinearRegression points
          { components := some components, resolveCoeffs := rc } with
      | error e => rw [hnr] at h; simp [Functor.map, Except.map] at h
      | ok c =>
        rw [hnr] at h
        simp only [Functor.map, Except.map] at h
        injection h with h2
        subst h2
        refine ⟨rfl, ?_⟩
        intro f e rest hcon
        simp at hcon
    · split at h
      · simp only [throw, throwThe, MonadExceptOf.throw] at h
        exact Except.noConfusion h
      · rename_i bs hbs
        split at h
        · injection h with h2
          subst h2
          refine ⟨by simp [logOk, chainOk], ?_⟩
          intro f e rest hcon
          simp only [List.cons.injEq, Prod.mk.injEq] at hcon
          exact ⟨hcon.1.2.symm, bs, hbs, hcon.1.1.symm⟩
        · set RL := refineLoop (lossOf components points) lr epochs 0 bs.1 bs.2 lr [(bs.1, 0)]
            with hRL
          have hlog : logOk RL.2 = true := by
            refine refineLoop_logOk _ _ epochs 0 bs.1 bs.2 lr [(bs.1, 0)]
              (by simp [logOk, chainOk]) ?_ (by simp)
            intro g m hg
            simp only [List.getLast?_singleton, Option.some.injEq, Prod.mk.injEq] at hg
            exact ⟨by rw [hg.1], by omega⟩
          obtain ⟨ext, hext⟩ :=
            refineLoop_log_extends (lossOf components points) lr epochs 0 bs.1 bs.2 lr [(bs.1, 0)]
          rw [← hRL] at hext
          split at h
          · rename_i rc'
            cases hrc : rc' (some RL.1.coeffs) with
            | error e => rw [hrc] at h; simp [Functor.map, Except.map] at h
            | ok c =>
              rw [hrc] at h
              simp only [Functor.map, Except.map] at h
              injection h with h2
              subst h2
              refine ⟨hlog, ?_⟩
              intro f e rest hcon
              simp only at hcon
              rw [hext] at hcon
              simp only [List.singleton_append, List.cons.injEq, Prod.mk.injEq] at hcon
              exact ⟨hcon.1.2.symm, bs, hbs, hcon.1.1.symm⟩
          · injection h with h2
            subst h2
            refine ⟨hlog, ?_⟩
            intro f e rest hcon
            simp only at hcon
            rw [hext] at hcon
            simp only [List.singleton_append, List.cons.injEq, Prod.mk.injEq] at hcon
            exact ⟨hcon.1.2.symm, bs, hbs, hcon.1.1.symm⟩

/-- C5 witness: a run on three collinear points (every restart has zero
error) issues exactly one onFit invocation, at epoch 0, with the
initialization best fit. -/
theorem onFit_discipline_witness :
    logOk [((⟨0, [1, 0]⟩ : InternalFit), 0)] = true ∧
    (∀ f e rest, ([((⟨0, [1, 0]⟩ : InternalFit), 0)] : OnFitLog) = (f, e) :: rest →
      e = 0 ∧ ∃ bs, initStageBest (getPolynomeComponents 1) [(0, 0), (1, 1), (2, 2)]
        (fun _ => [0, 2]) 5 = some bs ∧ f = bs.1) :=
  onFit_discipline [(0, 0), (1, 1), (2, 2)] [(0, 0), (1, 1), (2, 2)]
    (getPolynomeComponents 1) (getPolynomeComponents 1) none 2 50 5 (1 / 2)
    (fun _ => [0, 2]) (.coeffsOnly [1, 0], [(⟨0, [1, 0]⟩, 0)]) (by rfl)

/-- C10. Minimal-points shortcut: when the original point count equals
the (possibly constraint-reduced) basis size, the iterative-path core
performs no random-restart initialization, no refinement and issues no
onFit invocation: it returns the exact solve on the (possibly remapped)
points as a fit record whose error is the MSE over the full original
point set and whose coefficients are the constraint-expanded (hence
original-basis) solution. -/
theorem minimalPoints_shortcut (origPoints points : List Point)
    (components UComponents : List Comp) (rc : Option Resolver)
    (size epochs initEpochs : Nat) (lr : ℚ) (select : Nat → List Nat) (cs : List ℚ)
    (hsize : origPoints.length = size)
    (hsolve : nonlinearRegression points
        { components := some components, resolveCoeffs := rc } = .ok cs) :
    nlgdrCore origPoints points components UComponents rc size epochs initEpochs lr select
      = .ok (.fit ⟨computePointsLoss origPoints (fyComponentsCoeffs UComponents cs), cs,
          UComponents, fyComponentsCoeffs UComponents cs⟩, []) := by
  simp only [nlgdrCore]
  rw [if_neg (by omega)]
  simp only [bind, Except.bind, pure, Except.pure]
  rw [if_pos hsize, hsolve]

/-- C10 witness: two points and a degree-1 basis take the shortcut and
return the exact line through them with no onFit invocations. -/
theorem minimalPoints_shortcut_witness :
    nlgdrCore [(0, 4), (3, 19)] [(0, 4), (3, 19)] (getPolynomeComponents 1)
        (getPolynomeComponents 1) none 2 50 5 (1 / 2) (fun _ => [])
      = .ok (.fit ⟨computePointsLoss [(0, 4), (3, 19)]
            (fyComponentsCoeffs (getPolynomeComponents 1) [5, 4]), [5, 4],
          getPolynomeComponents 1, fyComponentsCoeffs (getPolynomeComponents 1) [5, 4]⟩, []) :=
  minimalPoints_shortcut [(0, 4), (3, 19)] [(0, 4), (3, 19)] (getPolynomeComponents 1)
    (getPolynomeComponents 1) none 2 50 5 (1 / 2) (fun _ => []) [5, 4] rfl (by rfl)

theorem dedupPointsGo_dup (p : Point) (l2 : List Point) :
    ∀ (l1 seen : List Point),
      dedupPointsGo seen (l1 ++ p :: p :: l2) = dedupPointsGo seen (l1 ++ p :: l2) := by
  intro l1
  induction l1 with
  | nil =>
    intro seen
    simp only [List.nil_append, dedupPointsGo]
    by_cases hp : p ∈ seen
    · simp [hp, dedupPointsGo]
    · simp [hp, dedupPointsGo]
  | cons q l1 ih =>
    intro seen
    simp only [List.cons_append, dedupPointsGo]
    by_cases hq : q ∈ seen
    · simp [hq, ih]
    · simp [hq, ih]

theorem dedupPoints_dup (l1 l2 : List Point) (p : Point) :
    dedupPoints (l1 ++ p :: p :: l2) = dedupPoints (l1 ++ p :: l2) :=
  dedupPointsGo_dup p l2 l1 []

/-- C9. Duplicate point constraints are deduplicated before any use:
on the iterative path, supplying the same point constraint twice is
equivalent to supplying it once — the whole call returns the same
result, because the exactly-determined check and the constraint
elimination both run on the list of distinct constraints. -/
theorem duplicate_pointConstraints (points : List Point) (opts : Options)
    (select : Nat → List Nat) (l1 l2 : List Point) (p : Point) :
    nonlinearGradientDescentRegression points
        { opts with pointConstraints := some (l1 ++ p :: p :: l2) } select
      = nonlinearGradientDescentRegression points
        { opts with pointConstraints := some (l1 ++ p :: l2) } select := by
  by_cases hp : points.length = 0
  · simp [nonlinearGradientDescentRegression, hp, bind, Except.bind, throw, throwThe,
      MonadExceptOf.throw]
  · simp only [nonlinearGradientDescentRegression, hp, Option.getD_some]
    rw [dedupPoints_dup]
    have h1 : (l1 ++ p :: p :: l2).length ≠ 0 := by simp
    have h2 : (l1 ++ p :: l2).length ≠ 0 := by simp
    rw [if_pos (Or.inl h1), if_pos (Or.inl h2)]

/-- C2 counterexample: with a degree-1 basis (size 2) and three distinct
point constraints, the iterative path raises no overdetermined error at
all: it returns normally with the fit determined by the first two
distinct constraints (the third is silently ignored; the returned MSE
4/3 reflects the unmatched third constraint). -/
theorem overdetermined_points_accepted :
    nonlinear [(0, 0), (1, 1), (2, 4)]
        { deg := 1, exact := false, pointConstraints := some [(0, 0), (1, 1), (2, 4)] }
        (fun _ => [0, 2])
      = .ok (.fit ⟨4 / 3, [1, 0], getPolynomeComponents 1,
          fyComponentsCoeffs (getPolynomeComponents 1) [1, 0]⟩, []) := by rfl

/-- C2 amended: the overdetermined rejection exists only for slope
constraints — supplying more slopes than the derivative basis size
raises the overdetermined-system error; excess point constraints raise
no error (see the counterexample). -/
theorem overdetermined_slopes_rejected (components0 : List Comp)
    (points? : Option (List Point)) (slopeComponents : List Comp) (slopes : List Point)
    (hdim : components0.length = slopeComponents.length + 1)
    (hsl : slopeComponents.length ≠ 0)
    (hover : slopes.length > slopeComponents.length) :
    decreaseLinearComplexity components0 points?
        (some (DLCOpts.mk (some (SlopeOpts.mk (some slopeComponents) (some slopes)))))
      = .error .overdeterminedSlopes := by
  simp only [decreaseLinearComplexity, Option.getD_some]
  rw [if_neg (by omega), if_pos ⟨hsl, by omega⟩, if_neg (by omega), if_pos hover]
  simp [throw, throwThe, MonadExceptOf.throw, bind, Except.bind, pure, Except.pure]

/-- C2 amended witness: two slopes against the one-dimensional
derivative basis of a degree-1 system raise the overdetermined error. -/
theorem overdetermined_slopes_rejected_witness :
    decreaseLinearComplexity [fun x : ℚ => x, fun _ : ℚ => 1] (some [((0 : ℚ), (0 : ℚ))])
        (some (DLCOpts.mk (some (SlopeOpts.mk (some [fun _ : ℚ => 1])
          (some [(0, 1), (1, 2)])))))
      = .error .overdeterminedSlopes :=
  overdetermined_slopes_rejected [fun x : ℚ => x, fun _ : ℚ => 1] (some [(0, 0)])
    [fun _ : ℚ => 1] [(0, 1), (1, 2)] (by simp) (by simp) (by simp)

/-- C3. On the iterative path, when the two initialization fits have
(near-)equal error the call returns the bare coefficient matrix
bestFit.coeffs — not the documented fit record: here three collinear
points make every restart error zero, and the returned value is the
coefficients-only shape with no error, basis or evaluator attached (and
without the resolveCoeffs expansion that the fit-record paths apply). -/
theorem earlyStop_returns_bare_coefficients :
    nonlinear [(0, 0), (1, 1), (2, 2)] { deg := 1, exact := false } (fun _ => [0, 2])
      = .ok (.coeffsOnly [1, 0], [(⟨0, [1, 0]⟩, 0)]) := by rfl

/-- C4. On the iterative path, supplying slope constraints without point
constraints crashes: the guard takes the constraint branch but the code
reads pointConstraints.length from the absent option, a TypeError rather
than the documented successful pre-reduction. -/
theorem slopes_without_pointConstraints_crash :
    nonlinear [(0, 0), (1, 1), (2, 4)]
        { deg := 1, exact := false, slopeConstraints := some { slopes := some [(1, 2)] } }
        (fun _ => [0, 2])
      = .error .typeError := by rfl

/-- C8 counterexample: with one successful restart (initEpochs = 1 and
one realizable zone selection) on the points (0,0), (1,10), (2,2), the
restart best is the line y = x with MSE 27; scaling its coefficients by
1.05 lowers the MSE, so the synthesized fit becomes bestFit and the
secondBestFit slot holds the previous (unscaled) best — not the
synthesized candidate. -/
theorem secondBest_synthesis_counterexample :
    initStageBest (getPolynomeComponents 1) [(0, 0), (1, 10), (2, 2)] (fun _ => [0, 2]) 1
        = some (synthesizeSecondBest
            (lossOf (getPolynomeComponents 1) [(0, 0), (1, 10), (2, 2)]) ⟨27, [1, 0]⟩) ∧
    (synthesizeSecondBest
        (lossOf (getPolynomeComponents 1) [(0, 0), (1, 10), (2, 2)]) ⟨27, [1, 0]⟩).2.coeffs
      ≠ List.map (fun c => 105 / 100 * c) [1, 0] :=
  ⟨rfl, by decide⟩

/-- C8 amended: the synthesize step creates the fit with coefficients
scaled by 1.05 and recomputed MSE; the synthesized fit and the previous
bestFit fill the two slots, bestFit always ending with the lower of the
two errors — the synthesized fit fills secondBestFit unless its error is
strictly lower than bestFit's, in which case the two are swapped. -/
theorem secondBest_synthesis (loss : List ℚ → ℚ) (b : InternalFit) :
    (synthesizeSecondBest loss b).1.err
        = min b.err (loss (b.coeffs.map (fun c => 105 / 100 * c))) ∧
    ((synthesizeSecondBest loss b)
        = (b, ⟨loss (b.coeffs.map (fun c => 105 / 100 * c)),
            b.coeffs.map (fun c => 105 / 100 * c)⟩)
      ∨ (synthesizeSecondBest loss b)
        = (⟨loss (b.coeffs.map (fun c => 105 / 100 * c)),
            b.coeffs.map (fun c => 105 / 100 * c)⟩, b)) ∧
    (b.err ≤ loss (b.coeffs.map (fun c => 105 / 100 * c)) →
      (synthesizeSecondBest loss b)
        = (b, ⟨loss (b.coeffs.map (fun c => 105 / 100 * c)),
            b.coeffs.map (fun c => 105 / 100 * c)⟩)) ∧
    (loss (b.coeffs.map (fun c => 105 / 100 * c)) < b.err →
      (synthesizeSecondBest loss b)
        = (⟨loss (b.coeffs.map (fun c => 105 / 100 * c)),
            b.coeffs.map (fun c => 105 / 100 * c)⟩, b)) := by
  simp only [synthesizeSecondBest]
  split_ifs with h
  · exact ⟨(min_eq_right h.le).symm, Or.inr rfl,
      fun hle => absurd h (not_lt.mpr hle), fun _ => rfl⟩
  · exact ⟨(min_eq_left (le_of_not_lt h)).symm, Or.inl rfl,
      fun _ => rfl, fun hlt => absurd hlt h⟩

end CloudlessML
